import Mathlib

/-!
Verification of the progress-tracking engine of the svt-av1-hdr encoder
frontend (Go package `encoder`).

Modelling conventions for the shallow embedding:
* Go `int64` is modelled as `ℤ`; where the source can overflow we apply an
  explicit two's-complement wrap (`wrap64`).
* Go `float64` is modelled as `ℚ` (exact rational arithmetic); decimal
  literals such as `0.3` are read as the exact rationals `3/10`.  Claims
  about bit-level float rounding are outside this embedding.
* Go `time.Duration` is an `int64` count of nanoseconds, modelled as `ℤ`.
* `time.Time` start stamps are modelled by the boolean `StartTimeIsZero`
  together with an explicit `elapsed` (nanoseconds since start) argument
  threaded to every computation that calls `time.Since`.
* Go strings are Lean `String`s; the character-level scanning done by the
  source's regular expressions and `strings` helpers is implemented
  directly on `List Char`.
-/

namespace SvtEncoder

/-- Numeric value of a list of ASCII digits, most significant first
(the accumulator form used by `strconv` style parsing). -/
def digitsVal (l : List Char) : ℕ :=
  l.foldl (fun a c => 10 * a + (c.toNat - 48)) 0

/-- RE2 character class `\s` (as used by Go `regexp`): tab, newline,
form feed, carriage return and space. -/
def isRe2Space (c : Char) : Bool :=
  c = ' ' || c = '\t' || c = '\n' || c = '\x0c' || c = '\r'

/-- Model of `unicode.IsSpace` as used by Go `strings.TrimSpace`, restricted to the
space characters that can actually occur in the tool's byte-oriented
input: ASCII whitespace plus NEL and NBSP. -/
def isUniSpace (c : Char) : Bool :=
  c = ' ' || c = '\t' || c = '\n' || c = '\x0b' || c = '\x0c' || c = '\r' ||
  c = '\x85' || c = '\xa0'

/-- ASCII decimal digit test (Go's `0`-`9` checks, phrased on the code
point so that numeric bounds are immediate). -/
def isDig (c : Char) : Bool :=
  48 ≤ c.toNat && c.toNat ≤ 57

/-- RE2 character class `[\d.]` from the speed regular expression. -/
def isDigitDot (c : Char) : Bool :=
  isDig c || c = '.'

/-- Go `strings.TrimSpace` on a character list. -/
def goTrim (l : List Char) : List Char :=
  ((l.dropWhile isUniSpace).reverse.dropWhile isUniSpace).reverse

/-- Go `strings.HasPrefix` / `String.startsWith`. -/
def hasPre (p l : List Char) : Bool :=
  match p, l with
  | [], _ => true
  | _ :: _, [] => false
  | p :: ps, c :: cs => if p = c then hasPre ps cs else false

/-- Go integer division (`/` on `int64`): truncation toward zero.
The divisor is never zero at any call site of this development. -/
def goDiv (a b : ℤ) : ℤ :=
  Int.sign a * Int.sign b * ((a.natAbs / b.natAbs : ℕ) : ℤ)

/-- Two's-complement wrap of an integer into the `int64` range, modelling
Go's silent overflow on 64-bit arithmetic. -/
def wrap64 (z : ℤ) : ℤ :=
  (z + 2 ^ 63) % 2 ^ 64 - 2 ^ 63

/-- Go conversion `int64(f)` of a `float64`: truncation toward zero,
modelled on exact rationals. -/
def truncQ (q : ℚ) : ℤ :=
  if 0 ≤ q then ⌊q⌋ else ⌈q⌉

/-- Sign and remainder of an optional leading `+`/`-`, shared by the
`strconv.ParseInt` and `strconv.ParseFloat` models. -/
def stripSign (l : List Char) : ℤ × List Char :=
  if l.head? = some '+' then (1, l.tail)
  else if l.head? = some '-' then (-1, l.tail)
  else (1, l)

/-- Go `strconv.ParseInt(s, 10, 64)`: optional sign, one or more decimal
digits, result in the `int64` range; `none` models a non-nil error
(both syntax and range errors make the source bail out). -/
def parseIntGo (l : List Char) : Option ℤ :=
  if l ≠ [] ∧ (stripSign l).2 ≠ [] ∧ (stripSign l).2.all isDig then
    if -(2 ^ 63) ≤ (stripSign l).1 * (digitsVal (stripSign l).2 : ℕ) ∧
        (stripSign l).1 * (digitsVal (stripSign l).2 : ℕ) ≤ 2 ^ 63 - 1 then
      some ((stripSign l).1 * (digitsVal (stripSign l).2 : ℕ))
    else none
  else none

/-- Mantissa of a decimal float literal: digits with at most one dot and
at least one digit, as accepted by `strconv.ParseFloat`. -/
def parseMantissa (l : List Char) : Option ℚ :=
  let ip := l.takeWhile isDig
  match l.drop ip.length with
  | [] => if ip = [] then none else some (digitsVal ip : ℚ)
  | '.' :: rest =>
    if rest.all isDig ∧ (ip ≠ [] ∨ rest ≠ []) then
      some ((digitsVal ip : ℚ) + (digitsVal rest : ℚ) / 10 ^ rest.length)
    else none
  | _ => none

/-- Go `strconv.ParseFloat(s, 64)` on the decimal forms the tool can
meet: optional sign, decimal mantissa, optional decimal exponent.
(Hex floats, `inf`/`nan` and digit-separating underscores, which never
occur in the telemetry grammar, are not modelled.)  Values are kept as
exact rationals. -/
def goParseFloat (l : List Char) : Option ℚ :=
  let sd := stripSign l
  let m := sd.2.takeWhile (fun c => !(c = 'e') && !(c = 'E'))
  match sd.2.drop m.length with
  | [] => (parseMantissa m).map (fun v => (sd.1 : ℚ) * v)
  | _ :: ex =>
    let se := stripSign ex
    if se.2 ≠ [] ∧ se.2.all isDig then
      (parseMantissa m).map
        (fun v => (sd.1 : ℚ) * v * 10 ^ (se.1 * (digitsVal se.2 : ℕ) : ℤ))
    else none

/-- Tail matcher for the speed regular expression
`speed=\s*([\d.]+x|N/A)\s*$`: given the text after a literal `speed=`,
returns the captured token if `\s*`, the token alternatives and the
end-of-line anchor all match. -/
def matchSpeedTail (cs : List Char) : Option (List Char) :=
  let rest := cs.dropWhile isRe2Space
  if rest.take 3 = ['N', '/', 'A'] ∧ (rest.drop 3).all isRe2Space then
    some ['N', '/', 'A']
  else
    match rest.dropWhile isDigitDot with
    | 'x' :: tail =>
      if rest.takeWhile isDigitDot ≠ [] ∧ tail.all isRe2Space then
        some (rest.takeWhile isDigitDot ++ ['x'])
      else none
    | _ => none

/-- Leftmost match of the anchored speed regular expression over a line,
as computed by `regexp.FindStringSubmatch`: scan for each occurrence of
the literal `speed=` and take the first whose tail matches. -/
def findSpeedMatch : List Char → Option (List Char)
  | [] => none
  | c :: cs =>
    if hasPre ['s', 'p', 'e', 'e', 'd', '='] (c :: cs) then
      match matchSpeedTail ((c :: cs).drop 6) with
      | some tok => some tok
      | none => findSpeedMatch cs
    else findSpeedMatch cs

/-- Go `strings.TrimSuffix(s, "x")`. -/
def trimSuffixX (l : List Char) : List Char :=
  if l.getLast? = some 'x' then l.dropLast else l

/-- Function `parseSpeed` from the source: extracts the speed multiplier from one
line of FFmpeg output, returning `(speed, raw, ok)`. -/
def parseSpeed (line : String) : ℚ × String × Bool :=
  match findSpeedMatch line.data with
  | none => (0, "", false)
  | some tok =>
    if String.mk tok = "N/A" then (0, String.mk tok, true)
    else
      match goParseFloat (trimSuffixX tok) with
      | some v => (v, String.mk tok, true)
      | none => (0, String.mk tok, false)

/-- Go `strings.Split` with a one-character separator. -/
def splitOnChar (sep : Char) : List Char → List (List Char)
  | [] => [[]]
  | c :: rest =>
    if c = sep then [] :: splitOnChar sep rest
    else
      match splitOnChar sep rest with
      | h :: t => (c :: h) :: t
      | [] => [[c]]

/-- The source's fractional-seconds normalization: pad with `0` on the
right until six digits, then truncate to six. -/
def pad6 (l : List Char) : List Char :=
  (l ++ ['0', '0', '0', '0', '0', '0']).take 6

/-- Function `parseOutTime` from the source, on character lists: parses FFmpeg's
`HH:MM:SS.microseconds` output-time format into microseconds, with `-1`
as the failure sentinel.  A parse error on the fractional part is
discarded by the source (`microsecs, _ = strconv.ParseInt(...)`), which
leaves `microsecs` at zero. -/
def parseOutTimeCore (l : List Char) : ℤ :=
  if goTrim l = [] ∨ goTrim l = ['N', '/', 'A'] then -1
  else
    match splitOnChar ':' (goTrim l) with
    | [p₁, p₂, p₃] =>
      match parseIntGo p₁, parseIntGo p₂ with
      | some hours, some mins =>
        match parseIntGo ((splitOnChar '.' p₃).headD []) with
        | some secs =>
          wrap64 (hours * 3600000000 + mins * 60000000 + secs * 1000000 +
            (if 1 < (splitOnChar '.' p₃).length then
              (parseIntGo (pad6 ((splitOnChar '.' p₃).getD 1 []))).getD 0
             else 0))
        | none => -1
      | _, _ => -1
    | _ => -1

/-- Function `parseOutTime` from the source, on strings. -/
def parseOutTime (s : String) : ℤ :=
  parseOutTimeCore s.data

/-- The `Progress` record of the source: the authoritative mutable
encoding-progress state.  `time.Duration` fields (`TotalDuration`,
`ETA`) hold nanosecond counts; `StartTime` is represented by
`StartTimeIsZero` (whether it is the zero time), with the elapsed
wall-clock time since start passed explicitly where the source calls
`time.Since`. -/
structure Progress where
  Frame : ℤ
  FPS : ℚ
  Bitrate : String
  TotalSize : ℤ
  OutTimeUs : ℤ
  Speed : String
  Percentage : ℚ
  TotalFrames : ℤ
  TotalDuration : ℤ
  ETA : ℤ
  SpeedRaw : String
  BitrateRaw : String
  ETAAvailable : Bool
  StartTimeIsZero : Bool
  LastValidFPS : ℚ
  LastValidSpeed : ℚ
  FrameEstimated : Bool
  SourceFPS : ℚ
  deriving DecidableEq

/-- The zero value of `Progress`, as produced by `New` (all numeric
fields 0, strings empty, start time not yet set). -/
def initProgress : Progress :=
  { Frame := 0, FPS := 0, Bitrate := "", TotalSize := 0, OutTimeUs := 0,
    Speed := "", Percentage := 0, TotalFrames := 0, TotalDuration := 0,
    ETA := 0, SpeedRaw := "", BitrateRaw := "", ETAAvailable := false,
    StartTimeIsZero := true, LastValidFPS := 0, LastValidSpeed := 0,
    FrameEstimated := false, SourceFPS := 0 }

/-- The `progressUpdate` batch record of the source: one batch of typed
field updates, each flagged present or absent. -/
structure progressUpdate where
  frame : ℤ := 0
  frameSet : Bool := false
  fps : ℚ := 0
  fpsSet : Bool := false
  bitrate : String := ""
  bitrateRaw : String := ""
  bitrateSet : Bool := false
  size : ℤ := 0
  sizeSet : Bool := false
  outTimeUs : ℤ := 0
  outTimeSet : Bool := false
  speed : ℚ := 0
  speedRaw : String := ""
  speedSet : Bool := false
  deriving DecidableEq

/-- The zero-valued batch used when a batch is reset. -/
def emptyBatch : progressUpdate := {}

/-- Function `clampPercentage` from the source. -/
def clampPercentage (pct : ℚ) : ℚ :=
  if pct < 0 then 0
  else if 100 < pct then 100
  else pct

/-- Go `Duration.Microseconds()`: nanoseconds divided by 1000 with
truncating integer division. -/
def goMicroseconds (d : ℤ) : ℤ :=
  goDiv d 1000

/-- The frame-based percentage candidate computed by
`calculatePercentageLocked`. -/
def framePctOf (s : Progress) : ℚ :=
  (s.Frame : ℚ) / (s.TotalFrames : ℚ) * 100

/-- The time-based percentage candidate computed by
`calculatePercentageLocked`. -/
def timePctOf (s : Progress) : ℚ :=
  (s.OutTimeUs : ℚ) / (goMicroseconds s.TotalDuration : ℚ) * 100

/-- Method `calculatePercentageLocked` from the source: reconciles the
frame-based and time-based percentage candidates and stores the clamped
result. -/
def calculatePercentage (s : Progress) : Progress :=
  if (0 < s.TotalFrames ∧ 0 < s.Frame) ∧
      ((0 < s.TotalDuration ∧ 0 < s.OutTimeUs) ∧ 0 < goMicroseconds s.TotalDuration) then
    if 10 < (if framePctOf s - timePctOf s < 0 then -(framePctOf s - timePctOf s)
        else framePctOf s - timePctOf s) ∨ s.FrameEstimated = true then
      { s with Percentage := clampPercentage (timePctOf s) }
    else
      { s with Percentage := clampPercentage (framePctOf s) }
  else if (0 < s.TotalDuration ∧ 0 < s.OutTimeUs) ∧ 0 < goMicroseconds s.TotalDuration then
    { s with Percentage := clampPercentage (timePctOf s) }
  else if 0 < s.TotalFrames ∧ 0 < s.Frame then
    { s with Percentage := clampPercentage (framePctOf s) }
  else
    { s with Percentage := 0 }

/-- Method 1 of `calculateETALocked`: speed-multiplier tier. -/
def etaMethod1 (s : Progress) : Option ℤ :=
  if 0 < s.LastValidSpeed ∧ 0 < s.TotalDuration ∧ 0 < s.OutTimeUs then
    if 0 < goMicroseconds s.TotalDuration - s.OutTimeUs then
      some (truncQ (((goMicroseconds s.TotalDuration - s.OutTimeUs : ℤ) : ℚ) /
        s.LastValidSpeed) * 1000)
    else none
  else none

/-- Method 2 of `calculateETALocked`: frame-rate tier, skipped when the
frame count is estimated. -/
def etaMethod2 (s : Progress) : Option ℤ :=
  if s.FrameEstimated = false ∧ 0 < s.LastValidFPS ∧ 0 < s.TotalFrames ∧
      0 < s.Frame ∧ 0 < s.TotalFrames - s.Frame then
    some (truncQ (((s.TotalFrames - s.Frame : ℤ) : ℚ) / s.LastValidFPS * 1000000000))
  else none

/-- Method 3 of `calculateETALocked`: elapsed-time extrapolation. -/
def etaMethod3 (elapsed : ℤ) (s : Progress) : Option ℤ :=
  if 2 < s.Percentage ∧ s.StartTimeIsZero = false ∧ 10000000000 < elapsed then
    if 0 < 100 - s.Percentage then
      some (truncQ ((elapsed : ℚ) * (100 - s.Percentage) / s.Percentage))
    else none
  else none

/-- The raw (pre-smoothing) ETA computed by `calculateETALocked`'s
three-tier fallback; `none` models `etaCalculated = false`. -/
def computeRawEta (elapsed : ℤ) (s : Progress) : Option ℤ :=
  match etaMethod1 s with
  | some e => some e
  | none =>
    match etaMethod2 s with
    | some e => some e
    | none => etaMethod3 elapsed s

/-- Method `calculateETALocked` from the source: warm-up gate, three-tier raw
computation, then exponential smoothing against the previous stored
ETA. -/
def calculateETA (elapsed : ℤ) (s : Progress) : Progress :=
  if s.StartTimeIsZero = false ∧ elapsed < 5000000000 then
    { s with ETAAvailable := false, ETA := -1 }
  else
    match computeRawEta elapsed s with
    | none => { s with ETAAvailable := false, ETA := -1 }
    | some newETA =>
      if s.ETAAvailable = true ∧ 0 < s.ETA then
        if (s.ETA : ℚ) * (1 / 2) <
            (if ((newETA - s.ETA : ℤ) : ℚ) < 0 then -((newETA - s.ETA : ℤ) : ℚ)
             else ((newETA - s.ETA : ℤ) : ℚ)) then
          { s with ETA := truncQ ((newETA : ℚ) * (2 / 10) + (s.ETA : ℚ) * (8 / 10)),
                   ETAAvailable := true }
        else
          { s with ETA := truncQ ((newETA : ℚ) * (3 / 10) + (s.ETA : ℚ) * (7 / 10)),
                   ETAAvailable := true }
      else { s with ETA := newETA, ETAAvailable := true }

/-- The field-application section of `applyProgressBatch` (everything
before the percentage and ETA recomputations). -/
def applyFields (s : Progress) (b : progressUpdate) : Progress :=
  let s₁ :=
    if b.frameSet then
      if s.TotalFrames < b.frame ∧ 0 < s.TotalFrames then
        { s with Frame := b.frame, TotalFrames := b.frame, FrameEstimated := true }
      else { s with Frame := b.frame }
    else s
  let s₂ :=
    if b.fpsSet then
      if 0 < b.fps then { s₁ with FPS := b.fps, LastValidFPS := b.fps }
      else { s₁ with FPS := b.fps }
    else s₁
  let s₃ :=
    if b.bitrateSet then { s₂ with BitrateRaw := b.bitrateRaw, Bitrate := b.bitrate }
    else s₂
  let s₄ := if b.sizeSet then { s₃ with TotalSize := b.size } else s₃
  let s₅ := if b.outTimeSet then { s₄ with OutTimeUs := b.outTimeUs } else s₄
  if b.speedSet then
    if b.speedRaw = "N/A" then { s₅ with SpeedRaw := b.speedRaw, Speed := "N/A" }
    else if 0 < b.speed then
      { s₅ with SpeedRaw := b.speedRaw, Speed := b.speedRaw, LastValidSpeed := b.speed }
    else { s₅ with SpeedRaw := b.speedRaw, Speed := b.speedRaw }
  else s₅

/-- Method `applyProgressBatch` from the source: apply the batch's fields, then
recompute percentage and ETA. -/
def applyProgressBatch (elapsed : ℤ) (s : Progress) (b : progressUpdate) : Progress :=
  calculateETA elapsed (calculatePercentage (applyFields s b))

/-- Method `finalizeProgressLocked` from the source: on normal completion,
adopt the observed frame count as ground truth and force 100 percent
with ETA unavailable. -/
def finalizeProgress (s : Progress) : Progress :=
  if 0 < s.Frame then
    { s with TotalFrames := s.Frame, FrameEstimated := false, Percentage := 100,
             ETA := 0, ETAAvailable := false }
  else
    { s with Percentage := 100, ETA := 0, ETAAvailable := false }

/-- Go `strings.SplitN(line, "=", 2)` restricted to the case the source
uses: `none` when the line holds no `=` (the line is skipped), otherwise
the text before and after the first `=`. -/
def splitN2Eq (l : List Char) : Option (List Char × List Char) :=
  if '=' ∈ l then
    some (l.takeWhile (fun c => !(c = '=')), (l.dropWhile (fun c => !(c = '='))).tail)
  else none

/-- The `switch key` body of `parseProgress`: fold one trimmed key/value
pair into the pending batch. -/
def accumKV (b : progressUpdate) (key value : String) : progressUpdate :=
  if key = "frame" then
    match parseIntGo value.data with
    | some f => if 0 ≤ f then { b with frame := f, frameSet := true } else b
    | none => b
  else if key = "fps" then
    match goParseFloat value.data with
    | some x => if 0 ≤ x then { b with fps := x, fpsSet := true } else b
    | none => b
  else if key = "bitrate" then
    { b with bitrateRaw := value,
             bitrate := if ¬(value = "N/A") ∧ ¬(value = "") then value else "N/A",
             bitrateSet := true }
  else if key = "total_size" then
    match parseIntGo value.data with
    | some sz => if 0 ≤ sz then { b with size := sz, sizeSet := true } else b
    | none => b
  else if key = "out_time_us" then
    match parseIntGo value.data with
    | some us => if 0 ≤ us then { b with outTimeUs := us, outTimeSet := true } else b
    | none => b
  else if key = "out_time_ms" then
    match parseIntGo value.data with
    | some ms2 =>
      if 0 ≤ ms2 then { b with outTimeUs := wrap64 (ms2 * 1000), outTimeSet := true }
      else b
    | none => b
  else if key = "out_time" then
    if 0 ≤ parseOutTimeCore value.data then
      { b with outTimeUs := parseOutTimeCore value.data, outTimeSet := true }
    else b
  else if key = "speed" then
    if value = "N/A" then { b with speedRaw := value, speedSet := true }
    else
      match goParseFloat (trimSuffixX value.data) with
      | some sp =>
        if 0 ≤ sp then { b with speedRaw := value, speed := sp, speedSet := true }
        else { b with speedRaw := value }
      | none => { b with speedRaw := value }
  else b

/-- One non-marker line of `parseProgress`: split at the first `=`,
trim both sides, and fold into the batch (lines without `=` are
skipped). -/
def accumLine (b : progressUpdate) (line : String) : progressUpdate :=
  match splitN2Eq line.data with
  | none => b
  | some kv => accumKV b (String.mk (goTrim kv.1)) (String.mk (goTrim kv.2))

/-- The scanner loop of `parseProgress`, carrying the pending batch: a
`progress=` marker line applies the batch (finalizing on
`progress=end`) and resets it; any other line is folded into the batch;
at end of stream a pending batch is applied only if it carries a frame,
fps or size update. -/
def processLinesAux (elapsed : ℤ) : Progress → progressUpdate → List String → Progress
  | s, b, [] =>
    if b.frameSet || b.fpsSet || b.sizeSet then applyProgressBatch elapsed s b else s
  | s, b, line :: rest =>
    if hasPre ['p', 'r', 'o', 'g', 'r', 'e', 's', 's', '='] line.data then
      processLinesAux elapsed
        (if line = "progress=end" then finalizeProgress (applyProgressBatch elapsed s b)
         else applyProgressBatch elapsed s b)
        emptyBatch rest
    else processLinesAux elapsed s (accumLine b line) rest

/-- Method `parseProgress` over a whole telemetry stream, starting from an
empty batch. -/
def processLines (elapsed : ℤ) (s : Progress) (lines : List String) : Progress :=
  processLinesAux elapsed s emptyBatch lines

/-- The duration-based estimation core of `estimateFramesFromDuration`,
given the duration (seconds) already parsed from the probe output:
store the total duration and, when the source frame rate is sane,
derive an estimated total frame count. -/
def estimateFromDuration (s : Progress) (duration : ℚ) : Progress :=
  if duration ≤ 0 then s
  else if 86400 < duration then
    { s with TotalDuration := truncQ (duration * 1000000000) }
  else if 0 < s.SourceFPS ∧ s.SourceFPS < 1000 then
    if 0 < truncQ (duration * s.SourceFPS) ∧
        truncQ (duration * s.SourceFPS) < 100000000 then
      { s with TotalDuration := truncQ (duration * 1000000000),
               TotalFrames := truncQ (duration * s.SourceFPS),
               FrameEstimated := true }
    else { s with TotalDuration := truncQ (duration * 1000000000) }
  else { s with TotalDuration := truncQ (duration * 1000000000) }

/-- Method `addLog` from the source, on the log-line list: append, then keep
only the most recent 100 entries. -/
def addLogBounded (logs : List String) (line : String) : List String :=
  if 100 < (logs ++ [line]).length then
    (logs ++ [line]).drop ((logs ++ [line]).length - 100)
  else logs ++ [line]

/-- The log-keeping step of `captureStderr`: telemetry-looking lines
(`frame=`, `size=`, `fps=` prefixes) and empty lines are filtered out,
anything else is appended under the same 100-entry bound. -/
def stderrLogStep (logs : List String) (line : String) : List String :=
  if hasPre ['f', 'r', 'a', 'm', 'e', '='] line.data = false ∧
      hasPre ['s', 'i', 'z', 'e', '='] line.data = false ∧
      hasPre ['f', 'p', 's', '='] line.data = false ∧
      ¬(line = "") then
    addLogBounded logs line
  else logs

/-- The run-completion step of the `cmd.Wait` goroutine inside `Start`
(the stored `Error` value aside): on a process error the line
`Encoding error: ...` is appended to the log, otherwise progress is
finalized and `Encoding completed successfully!` is appended, and the
done flag is set — both appends go directly to `LogLines` and bypass
the 100-entry trim that `addLog` and `captureStderr` perform. -/
def waitCompletion (s : Progress) (logs : List String) (err : Option String) :
    Progress × List String × Bool :=
  match err with
  | some msg => (s, logs ++ ["Encoding error: " ++ msg], true)
  | none =>
    (finalizeProgress s, logs ++ ["Encoding completed successfully!"], true)

/-- Round to nearest integer, as the specification's
`round(duration_seconds × sourceFrameRate)` prescribes (floor of
`q + 1/2`). -/
def roundQ (q : ℚ) : ℤ :=
  ⌊q + 1 / 2⌋

/-- The percentage-reconciliation rule as worded by the specification:
both candidates valid (positive total microseconds and elapsed
microseconds for the time-based one; positive totals for the
frame-based one) prefers time-based when the frame count is estimated
or the candidates disagree by more than 10 points; otherwise the single
valid candidate is used, or 0; the result is always clamped. -/
def specReconcilePercent (s : Progress) : ℚ :=
  if (0 < s.TotalFrames ∧ 0 < s.Frame) ∧
      (0 < goMicroseconds s.TotalDuration ∧ 0 < s.OutTimeUs) then
    if s.FrameEstimated = true ∨ 10 < |framePctOf s - timePctOf s| then
      clampPercentage (timePctOf s)
    else clampPercentage (framePctOf s)
  else if 0 < goMicroseconds s.TotalDuration ∧ 0 < s.OutTimeUs then
    clampPercentage (timePctOf s)
  else if 0 < s.TotalFrames ∧ 0 < s.Frame then
    clampPercentage (framePctOf s)
  else 0

/-- A concrete progress state that exercises the speed-multiplier ETA
tier: speed multiplier 1, total duration 2 s, elapsed media time 1 s,
previous ETA available with the given value. -/
def etaProbeState (eta : ℤ) : Progress :=
  { Frame := 0, FPS := 0, Bitrate := "", TotalSize := 0, OutTimeUs := 1000000,
    Speed := "", Percentage := 0, TotalFrames := 0, TotalDuration := 2000000000,
    ETA := eta, SpeedRaw := "", BitrateRaw := "", ETAAvailable := true,
    StartTimeIsZero := false, LastValidFPS := 0, LastValidSpeed := 1,
    FrameEstimated := false, SourceFPS := 0 }

/-- A successful prefix test decomposes the list. -/
theorem hasPre_decomp {p l : List Char} (h : hasPre p l = true) :
    l = p ++ l.drop p.length := by
  induction p generalizing l with
  | nil => simp
  | cons a ps ih =>
    cases l with
    | nil => simp [hasPre] at h
    | cons c cs =>
      rw [hasPre] at h
      split at h
      · next heq => subst heq; simpa using ih h
      · exact absurd h (by simp)

/-- A successful speed-tail match decomposes the input into leading
whitespace, the captured token and trailing whitespace. -/
theorem matchSpeedTail_decomp {cs tok : List Char}
    (h : matchSpeedTail cs = some tok) :
    ∃ p ws, cs = p ++ tok ++ ws ∧ ws.all isRe2Space = true := by
  rw [matchSpeedTail] at h
  split at h
  · next hc =>
    obtain ⟨htake, hws⟩ := hc
    obtain rfl : ['N', '/', 'A'] = tok := by simpa using h
    refine ⟨cs.takeWhile isRe2Space, (cs.dropWhile isRe2Space).drop 3, ?_, hws⟩
    conv_lhs => rw [← List.takeWhile_append_dropWhile (p := isRe2Space) (l := cs)]
    rw [List.append_assoc, ← htake, List.take_append_drop]
  · split at h
    · next tail heq =>
      split at h
      · next hcond =>
        obtain rfl : (cs.dropWhile isRe2Space).takeWhile isDigitDot ++ ['x'] = tok := by
          simpa using h
        refine ⟨cs.takeWhile isRe2Space, tail, ?_, hcond.2⟩
        conv_lhs => rw [← List.takeWhile_append_dropWhile (p := isRe2Space) (l := cs)]
        conv_lhs =>
          rw [← List.takeWhile_append_dropWhile (p := isDigitDot)
            (l := cs.dropWhile isRe2Space)]
        rw [heq]
        simp
      · exact absurd h (by simp)
    · exact absurd h (by simp)

/-- Shape of a captured speed token: either the `N/A` sentinel or a
nonempty run of digits and dots followed by `x`. -/
theorem matchSpeedTail_shape {cs tok : List Char}
    (h : matchSpeedTail cs = some tok) :
    tok = ['N', '/', 'A'] ∨
      ∃ ds, tok = ds ++ ['x'] ∧ ds ≠ [] ∧ ds.all isDigitDot = true := by
  rw [matchSpeedTail] at h
  split at h
  · left; simpa using h.symm
  · split at h
    · split at h
      · next hcond =>
        right
        refine ⟨(cs.dropWhile isRe2Space).takeWhile isDigitDot, by simpa using h.symm,
          hcond.1, ?_⟩
        simp only [List.all_eq_true]
        intro c hc
        exact List.mem_takeWhile_imp hc
      · exact absurd h (by simp)
    · exact absurd h (by simp)

/-- A successful leftmost regular-expression match decomposes the line:
the captured token is followed only by whitespace. -/
theorem findSpeedMatch_decomp {cs tok : List Char}
    (h : findSpeedMatch cs = some tok) :
    ∃ p ws, cs = p ++ tok ++ ws ∧ ws.all isRe2Space = true := by
  induction cs with
  | nil => simp [findSpeedMatch] at h
  | cons c cs ih =>
    rw [findSpeedMatch] at h
    split at h
    · next hpre =>
      split at h
      · next tk hmt =>
        have heq : tk = tok := by simpa using h
        subst heq
        obtain ⟨p, ws, hdec, hws⟩ := matchSpeedTail_decomp hmt
        refine ⟨['s', 'p', 'e', 'e', 'd', '='] ++ p, ws, ?_, hws⟩
        have h6 := hasPre_decomp hpre
        simp only [List.length_cons, List.length_nil] at h6
        norm_num at h6
        obtain ⟨hc, hcs⟩ := h6
        simp only [List.drop_succ_cons] at hdec
        subst hc
        conv_lhs => rw [hcs]
        rw [hdec]
        simp
      · next hmt =>
        obtain ⟨p, ws, hdec, hws⟩ := ih h
        exact ⟨c :: p, ws, by simp [hdec], hws⟩
    · obtain ⟨p, ws, hdec, hws⟩ := ih h
      exact ⟨c :: p, ws, by simp [hdec], hws⟩

/-- Shape of the token returned by the full regular-expression search. -/
theorem findSpeedMatch_shape {cs tok : List Char}
    (h : findSpeedMatch cs = some tok) :
    tok = ['N', '/', 'A'] ∨
      ∃ ds, tok = ds ++ ['x'] ∧ ds ≠ [] ∧ ds.all isDigitDot = true := by
  induction cs with
  | nil => simp [findSpeedMatch] at h
  | cons c cs ih =>
    rw [findSpeedMatch] at h
    split at h
    · split at h
      · next tk hmt =>
        have heq : tk = tok := by simpa using h
        subst heq
        exact matchSpeedTail_shape hmt
      · exact ih h
    · exact ih h

/-- takeWhile keeps a list whose elements all satisfy the predicate. -/
theorem takeWhile_all_eq {p : Char → Bool} {l : List Char}
    (h : ∀ c ∈ l, p c = true) : l.takeWhile p = l := by
  induction l with
  | nil => rfl
  | cons c cs ih =>
    rw [List.takeWhile_cons, h c (by simp), ih fun d hd => h d (by simp [hd])]
    simp

/-- Digit-and-dot characters carry no sign marker. -/
theorem stripSign_digitDot {l : List Char} (h : ∀ c ∈ l, isDigitDot c = true) :
    stripSign l = (1, l) := by
  cases l with
  | nil => rfl
  | cons c cs =>
    have hc := h c (by simp)
    have hp : c ≠ '+' := by rintro rfl; exact absurd hc (by decide)
    have hm : c ≠ '-' := by rintro rfl; exact absurd hc (by decide)
    rw [stripSign]
    simp [hp, hm]

/-- A parsed mantissa is never negative. -/
theorem parseMantissa_nonneg {l : List Char} {v : ℚ}
    (h : parseMantissa l = some v) : 0 ≤ v := by
  rw [parseMantissa] at h
  split at h
  · split at h
    · exact absurd h (by simp)
    · obtain rfl : ((digitsVal (l.takeWhile isDig) : ℚ)) = v := by simpa using h
      positivity
  · split at h
    · next hcond =>
      obtain rfl := (Option.some.injEq _ _).mp h
      positivity
    · exact absurd h (by simp)
  · exact absurd h (by simp)

/-- Parsing a digit-and-dot token yields a nonnegative value. -/
theorem goParseFloat_digitDot_nonneg {l : List Char} {v : ℚ}
    (hall : ∀ c ∈ l, isDigitDot c = true) (h : goParseFloat l = some v) :
    0 ≤ v := by
  rw [goParseFloat] at h
  rw [stripSign_digitDot hall] at h
  have hee : ∀ c ∈ l, (!(c = 'e') && !(c = 'E')) = true := by
    intro c hc
    have := hall c hc
    have he : c ≠ 'e' := by rintro rfl; exact absurd this (by decide)
    have hE : c ≠ 'E' := by rintro rfl; exact absurd this (by decide)
    simp [he, hE]
  rw [takeWhile_all_eq hee] at h
  rw [List.drop_length] at h
  simp only [Option.map_eq_some'] at h
  obtain ⟨v₀, hv₀, rfl⟩ := h
  have := parseMantissa_nonneg hv₀
  simpa using this

/-- Dropping the trailing `x` of a token that ends in `x`. -/
theorem trimSuffixX_concat (ds : List Char) : trimSuffixX (ds ++ ['x']) = ds := by
  rw [trimSuffixX]
  simp

/-- C10 (confirmed).  The speed token is recognized only when it occurs at
the end of the line up to trailing whitespace: whenever `parseSpeed`
succeeds, the line decomposes as a prefix, the captured raw token and a
whitespace-only tail; in particular a well-formed token followed by
non-whitespace trailing text, such as in the line
`speed=1.5x extra`, is not recognized. -/
theorem parseSpeed_end_anchored :
    (∀ (line : String) (v : ℚ) (raw : String), parseSpeed line = (v, raw, true) →
      ∃ p ws, line.data = p ++ raw.data ++ ws ∧ ws.all isRe2Space = true) ∧
    parseSpeed "speed=1.5x extra" = (0, "", false) := by
  constructor
  · intro line v raw h
    cases hm : findSpeedMatch line.data with
    | none =>
      simp only [parseSpeed, hm] at h
      exact absurd h (by simp)
    | some tok =>
      simp only [parseSpeed, hm] at h
      have hraw : raw = String.mk tok := by
        by_cases hna : String.mk tok = "N/A"
        · rw [if_pos hna] at h
          exact (congrArg (fun t => t.2.1) h).symm
        · rw [if_neg hna] at h
          cases hf : goParseFloat (trimSuffixX tok) with
          | none => rw [hf] at h; exact (congrArg (fun t => t.2.1) h).symm
          | some v₀ => rw [hf] at h; exact (congrArg (fun t => t.2.1) h).symm
      subst hraw
      exact findSpeedMatch_decomp hm
  · simp +decide [parseSpeed, findSpeedMatch, matchSpeedTail, hasPre]

/-- Witness for C10: on the line `speed=2x` the parser succeeds and the
token indeed sits at the end of the line. -/
theorem parseSpeed_end_anchored_witness :
    ∃ p ws, ("speed=2x" : String).data = p ++ ("2x" : String).data ++ ws ∧
      ws.all isRe2Space = true :=
  parseSpeed_end_anchored.1 "speed=2x" 2 "2x"
    (by simp +decide [parseSpeed, findSpeedMatch, matchSpeedTail, hasPre,
      trimSuffixX, goParseFloat, parseMantissa, stripSign, digitsVal])

/-- C6 counterexample: on the line `speed=.x` the regular expression
matches (token `.x`) but the numeric conversion fails, and the parser
returns ok = false with the raw text `.x`, not the empty string the
claim requires on any parse failure. -/
theorem parseSpeed_failure_keeps_raw :
    parseSpeed "speed=.x" = (0, ".x", false) ∧ ¬((".x" : String) = "") := by
  constructor
  · simp +decide [parseSpeed, findSpeedMatch, matchSpeedTail, hasPre,
      trimSuffixX, goParseFloat, parseMantissa, stripSign]
  · decide

/-- C6 (amended).  `parseSpeed` returns `(0, "N/A", true)` for the
sentinel token, the numeric multiplier with ok = true for a `<number>x`
token, and never accepts a negative number; when the line does not match
the speed pattern at all it returns ok = false with empty raw text, but
when the pattern matches and only the numeric conversion fails it
returns ok = false with the raw text set to the matched token. -/
theorem parseSpeed_contract :
    (∀ line : String, findSpeedMatch line.data = none →
      parseSpeed line = (0, "", false)) ∧
    (∀ line : String, findSpeedMatch line.data = some ['N', '/', 'A'] →
      parseSpeed line = (0, "N/A", true)) ∧
    (∀ (line : String) (tok : List Char) (v : ℚ),
      findSpeedMatch line.data = some tok → String.mk tok ≠ "N/A" →
      goParseFloat (trimSuffixX tok) = some v →
      parseSpeed line = (v, String.mk tok, true)) ∧
    (∀ (line : String) (tok : List Char),
      findSpeedMatch line.data = some tok → String.mk tok ≠ "N/A" →
      goParseFloat (trimSuffixX tok) = none →
      parseSpeed line = (0, String.mk tok, false)) ∧
    (∀ (line : String) (v : ℚ) (raw : String),
      parseSpeed line = (v, raw, true) → 0 ≤ v) := by
  refine ⟨?_, ?_, ?_, ?_, ?_⟩
  · intro line h
    simp [parseSpeed, h]
  · intro line h
    simp +decide [parseSpeed, h]
  · intro line tok v h hna hf
    simp only [parseSpeed, h]
    rw [if_neg hna, hf]
  · intro line tok h hna hf
    simp only [parseSpeed, h]
    rw [if_neg hna, hf]
  · intro line v raw h
    cases hm : findSpeedMatch line.data with
    | none =>
      simp only [parseSpeed, hm] at h
      exact absurd h (by simp)
    | some tok =>
      simp only [parseSpeed, hm] at h
      rcases findSpeedMatch_shape hm with hna | ⟨ds, rfl, hne, hdd⟩
      · subst hna
        rw [if_pos (by decide)] at h
        have : (0 : ℚ) = v := congrArg (fun t => t.1) h
        rw [← this]
      · have hnna : String.mk (ds ++ ['x']) ≠ "N/A" := by
          intro hc
          have : ds ++ ['x'] = ['N', '/', 'A'] := congrArg String.data hc
          rcases ds with _ | ⟨d, ds⟩
          · simp at this
          · have hd := hdd
            simp only [List.all_eq_true] at hd
            have h1 : d = 'N' := by
              have := List.head_eq_of_cons_eq this
              exact this
            subst h1
            have := hd 'N' (by simp)
            exact absurd this (by decide)
        rw [if_neg hnna] at h
        cases hf : goParseFloat (trimSuffixX (ds ++ ['x'])) with
        | none => rw [hf] at h; exact absurd h (by simp)
        | some v₀ =>
          rw [hf] at h
          have hv : v₀ = v := congrArg (fun t => t.1) h
          rw [trimSuffixX_concat] at hf
          have := goParseFloat_digitDot_nonneg
            (by simpa [List.all_eq_true] using hdd) hf
          rw [← hv]
          exact this

/-- Witness for C6: the line `speed=2.34x` parses to the nonnegative
multiplier 2.34 with the raw token captured. -/
theorem parseSpeed_contract_witness :
    parseSpeed "speed=2.34x" = (117 / 50, "2.34x", true) ∧
      (0 : ℚ) ≤ 117 / 50 := by
  constructor
  · exact parseSpeed_contract.2.2.1 "speed=2.34x" ['2', '.', '3', '4', 'x'] (117 / 50)
      (by decide) (by decide)
      (by simp +decide [goParseFloat, parseMantissa, stripSign, trimSuffixX, digitsVal]
          norm_num)
  · norm_num

/-- dropWhile is the identity when no element satisfies the predicate. -/
theorem dropWhile_all_false {p : Char → Bool} {l : List Char}
    (h : ∀ c ∈ l, p c = false) : l.dropWhile p = l := by
  cases l with
  | nil => rfl
  | cons c cs =>
    rw [List.dropWhile_cons, h c (by simp)]
    simp

/-- Trimming is the identity on space-free lists. -/
theorem goTrim_id {l : List Char} (h : ∀ c ∈ l, isUniSpace c = false) :
    goTrim l = l := by
  rw [goTrim, dropWhile_all_false h,
    dropWhile_all_false (fun c hc => h c (List.mem_reverse.mp hc)), List.reverse_reverse]

/-- Splitting a separator-free list. -/
theorem splitOnChar_no_sep {sep : Char} {l : List Char}
    (h : ∀ c ∈ l, ¬(c = sep)) : splitOnChar sep l = [l] := by
  induction l with
  | nil => rfl
  | cons c cs ih =>
    rw [splitOnChar, if_neg (h c (by simp)), ih fun d hd => h d (by simp [hd])]

/-- Splitting peels off a separator-free prefix. -/
theorem splitOnChar_append {sep : Char} {a : List Char} (b : List Char)
    (h : ∀ c ∈ a, ¬(c = sep)) :
    splitOnChar sep (a ++ sep :: b) = a :: splitOnChar sep b := by
  induction a with
  | nil => simp [splitOnChar]
  | cons c cs ih =>
    rw [List.cons_append, splitOnChar, if_neg (h c (by simp)),
      ih fun d hd => h d (by simp [hd])]

/-- A space character is not a digit. -/
theorem space_not_dig {c : Char} (h : isUniSpace c = true) : isDig c = false := by
  rw [isUniSpace] at h
  simp only [Bool.or_eq_true, decide_eq_true_eq] at h
  rcases h with ((((((h | h) | h) | h) | h) | h) | h) | h <;> subst h <;> decide

/-- A digit is not a space character. -/
theorem dig_not_space {c : Char} (h : isDig c = true) : isUniSpace c = false := by
  cases hs : isUniSpace c
  · rfl
  · rw [space_not_dig hs] at h
    exact absurd h (by simp)

/-- A digit is not a separator character such as `:` or `.`. -/
theorem dig_ne_of_not_dig {c d : Char} (h : isDig c = true) (hd : isDig d = false) :
    ¬(c = d) := by
  rintro rfl
  rw [hd] at h
  exact absurd h (by simp)

/-- Bound on the accumulator form of digit evaluation. -/
theorem digitsVal_foldl_lt {l : List Char} (h : ∀ c ∈ l, isDig c = true) :
    ∀ a : ℕ, l.foldl (fun a c => 10 * a + (c.toNat - 48)) a < (a + 1) * 10 ^ l.length := by
  induction l with
  | nil => intro a; simp
  | cons c cs ih =>
    intro a
    have hc := h c (by simp)
    have hc9 : c.toNat - 48 ≤ 9 := by
      rw [isDig] at hc
      simp only [Bool.and_eq_true, decide_eq_true_eq] at hc
      omega
    have := ih (fun d hd => h d (by simp [hd])) (10 * a + (c.toNat - 48))
    calc List.foldl (fun a c => 10 * a + (c.toNat - 48)) (10 * a + (c.toNat - 48)) cs
        < (10 * a + (c.toNat - 48) + 1) * 10 ^ cs.length := this
      _ ≤ (10 * a + 10) * 10 ^ cs.length := by
          have : 10 * a + (c.toNat - 48) + 1 ≤ 10 * a + 10 := by omega
          exact Nat.mul_le_mul_right _ this
      _ = (a + 1) * 10 ^ (cs.length + 1) := by ring
      _ = (a + 1) * 10 ^ (c :: cs).length := by rw [List.length_cons]

/-- The value of a digit list is below `10 ^ length`. -/
theorem digitsVal_lt {l : List Char} (h : ∀ c ∈ l, isDig c = true) :
    digitsVal l < 10 ^ l.length := by
  have := digitsVal_foldl_lt h 0
  simpa [digitsVal] using this

/-- Evaluating `strconv.ParseInt` on a nonempty unsigned digit list in range. -/
theorem parseIntGo_digits {l : List Char} (hne : l ≠ [])
    (h : ∀ c ∈ l, isDig c = true) (hb : (digitsVal l : ℤ) ≤ 2 ^ 63 - 1) :
    parseIntGo l = some ((digitsVal l : ℤ)) := by
  have hs : stripSign l = (1, l) := by
    cases l with
    | nil => rfl
    | cons c cs =>
      have hc := h c (by simp)
      have hp : ¬(c = '+') := dig_ne_of_not_dig hc (by decide)
      have hm : ¬(c = '-') := dig_ne_of_not_dig hc (by decide)
      rw [stripSign]
      simp [hp, hm]
  rw [parseIntGo, hs]
  rw [if_pos (show l ≠ [] ∧ l ≠ [] ∧ l.all isDig = true from
    ⟨hne, hne, by simpa [List.all_eq_true] using h⟩)]
  rw [if_pos (show -(2 ^ 63) ≤ 1 * ((digitsVal l : ℕ) : ℤ) ∧
      1 * ((digitsVal l : ℕ) : ℤ) ≤ 2 ^ 63 - 1 from ⟨by omega, by omega⟩)]
  simp

/-- The padded fraction has exactly six characters. -/
theorem pad6_length (l : List Char) : (pad6 l).length = 6 := by
  rw [pad6, List.length_take, List.length_append]
  simp

/-- Padding preserves digit-only content. -/
theorem pad6_digits {l : List Char} (h : ∀ c ∈ l, isDig c = true) :
    ∀ c ∈ pad6 l, isDig c = true := by
  intro c hc
  rw [pad6] at hc
  have hc' := List.mem_of_mem_take hc
  rcases List.mem_append.mp hc' with hl | hr
  · exact h c hl
  · have : c = '0' := by simpa using hr
    subst this
    decide

/-- wrap64 is the identity on the int64 range. -/
theorem wrap64_id {z : ℤ} (h₀ : -(2 ^ 63) ≤ z) (h₁ : z < 2 ^ 63) :
    wrap64 z = z := by
  rw [wrap64, Int.emod_eq_of_lt (by omega) (by omega)]
  omega

/-- C7 counterexample: on `00:00:01.abc` the fractional component is not
numeric, yet the parser returns the positive value 1000000 (one second)
instead of the negative sentinel the claim requires for any
non-numeric component. -/
theorem parseOutTime_bad_fraction :
    parseOutTime "00:00:01.abc" = 1000000 ∧ ¬(parseOutTime "00:00:01.abc" < 0) := by
  constructor
  · decide
  · decide

/-- C7 (amended).  `parseOutTime` accepts `HH:MM:SS[.fraction]`,
converting to microseconds with the fraction padded or truncated to six
digits, and returns the sentinel `-1` when the colon-segment count is
wrong or the hours, minutes or integer-second component is non-numeric;
a non-numeric fractional component, however, is silently treated as
zero microseconds rather than producing the sentinel. -/
theorem parseOutTime_contract :
    (∀ l : List Char, (splitOnChar ':' (goTrim l)).length ≠ 3 →
      parseOutTimeCore l = -1) ∧
    (∀ l p₁ p₂ p₃ : List Char, splitOnChar ':' (goTrim l) = [p₁, p₂, p₃] →
      (parseIntGo p₁ = none ∨ parseIntGo p₂ = none ∨
        parseIntGo ((splitOnChar '.' p₃).headD []) = none) →
      parseOutTimeCore l = -1) ∧
    (∀ hs ms ss fs : List Char,
      hs ≠ [] → (∀ c ∈ hs, isDig c = true) → hs.length ≤ 6 →
      ms ≠ [] → (∀ c ∈ ms, isDig c = true) → ms.length ≤ 6 →
      ss ≠ [] → (∀ c ∈ ss, isDig c = true) → ss.length ≤ 6 →
      fs ≠ [] → (∀ c ∈ fs, isDig c = true) →
      parseOutTimeCore (hs ++ ':' :: ms ++ ':' :: ss ++ '.' :: fs) =
        (digitsVal hs : ℤ) * 3600000000 + (digitsVal ms : ℤ) * 60000000 +
          (digitsVal ss : ℤ) * 1000000 + (digitsVal (pad6 fs) : ℤ)) ∧
    (∀ hs ms ss : List Char,
      hs ≠ [] → (∀ c ∈ hs, isDig c = true) → hs.length ≤ 6 →
      ms ≠ [] → (∀ c ∈ ms, isDig c = true) → ms.length ≤ 6 →
      ss ≠ [] → (∀ c ∈ ss, isDig c = true) → ss.length ≤ 6 →
      parseOutTimeCore (hs ++ ':' :: ms ++ ':' :: ss) =
        (digitsVal hs : ℤ) * 3600000000 + (digitsVal ms : ℤ) * 60000000 +
          (digitsVal ss : ℤ) * 1000000) := by
  refine ⟨?_, ?_, ?_, ?_⟩
  · intro l h
    rw [parseOutTimeCore]
    split
    · rfl
    · split
      · next p₁ p₂ p₃ heq => exact absurd (by rw [heq]; rfl) h
      · rfl
  · intro l p₁ p₂ p₃ heq hnone
    rw [parseOutTimeCore]
    split
    · rfl
    · split
      · next q₁ q₂ q₃ heq' =>
        have hq : q₁ = p₁ ∧ q₂ = p₂ ∧ q₃ = p₃ := by
          have := heq'.symm.trans heq
          simpa using this
        obtain ⟨rfl, rfl, rfl⟩ := hq
        cases h₁ : parseIntGo q₁ with
        | none => simp
        | some hours =>
          cases h₂ : parseIntGo q₂ with
          | none => simp
          | some mins =>
            cases h₃ : parseIntGo ((splitOnChar '.' q₃).headD []) with
            | none => simp
            | some secs =>
              rcases hnone with hn | hn | hn
              · rw [hn] at h₁; exact absurd h₁ (by simp)
              · rw [hn] at h₂; exact absurd h₂ (by simp)
              · rw [hn] at h₃; exact absurd h₃ (by simp)
      · rfl
  · intro hs ms ss fs hne₁ hd₁ hl₁ hne₂ hd₂ hl₂ hne₃ hd₃ hl₃ hne₄ hd₄
    obtain ⟨d, hs₀, rfl⟩ : ∃ d hs₀, hs = d :: hs₀ := by
      cases hs with
      | nil => exact absurd rfl hne₁
      | cons d t => exact ⟨d, t, rfl⟩
    have hchars : ∀ c ∈ d :: hs₀ ++ ':' :: ms ++ ':' :: ss ++ '.' :: fs,
        isDig c = true ∨ c = ':' ∨ c = '.' := by
      intro c hc
      simp only [List.mem_cons, List.mem_append, or_assoc] at hc
      rcases hc with h | h | h | h | h | h | h | h
      · exact Or.inl (hd₁ c (by simp [h]))
      · exact Or.inl (hd₁ c (by simp [h]))
      · exact Or.inr (Or.inl h)
      · exact Or.inl (hd₂ c h)
      · exact Or.inr (Or.inl h)
      · exact Or.inl (hd₃ c h)
      · exact Or.inr (Or.inr h)
      · exact Or.inl (hd₄ c h)
    have hnospace : ∀ c ∈ d :: hs₀ ++ ':' :: ms ++ ':' :: ss ++ '.' :: fs,
        isUniSpace c = false := by
      intro c hc
      rcases hchars c hc with h | h | h
      · exact dig_not_space h
      · subst h; decide
      · subst h; decide
    have htrim := goTrim_id hnospace
    have hdN : isDig d = true := hd₁ d (by simp)
    have hcond : ¬(goTrim (d :: hs₀ ++ ':' :: ms ++ ':' :: ss ++ '.' :: fs) = [] ∨
        goTrim (d :: hs₀ ++ ':' :: ms ++ ':' :: ss ++ '.' :: fs) = ['N', '/', 'A']) := by
      rw [htrim]
      rintro (h | h)
      · exact absurd h (by simp)
      · have : d = 'N' := by
          have := congrArg List.head? h
          simpa using this
        subst this
        exact absurd hdN (by decide)
    have hsplit : splitOnChar ':' (d :: hs₀ ++ ':' :: ms ++ ':' :: ss ++ '.' :: fs) =
        [d :: hs₀, ms, ss ++ '.' :: fs] := by
      rw [show d :: hs₀ ++ ':' :: ms ++ ':' :: ss ++ '.' :: fs =
          (d :: hs₀) ++ ':' :: (ms ++ ':' :: (ss ++ '.' :: fs)) by simp]
      rw [splitOnChar_append _ fun c hc => dig_ne_of_not_dig (hd₁ c hc) (by decide)]
      rw [splitOnChar_append _ fun c hc => dig_ne_of_not_dig (hd₂ c hc) (by decide)]
      rw [splitOnChar_no_sep]
      intro c hc
      rcases List.mem_append.mp hc with h | h
      · exact dig_ne_of_not_dig (hd₃ c h) (by decide)
      · rcases List.mem_cons.mp h with h | h
        · subst h; decide
        · exact dig_ne_of_not_dig (hd₄ c h) (by decide)
    have hsec : splitOnChar '.' (ss ++ '.' :: fs) = [ss, fs] := by
      rw [splitOnChar_append _ fun c hc => dig_ne_of_not_dig (hd₃ c hc) (by decide)]
      rw [splitOnChar_no_sep fun c hc => dig_ne_of_not_dig (hd₄ c hc) (by decide)]
    have hb₁ : digitsVal (d :: hs₀) < 10 ^ 6 :=
      lt_of_lt_of_le (digitsVal_lt hd₁) (Nat.pow_le_pow_right (by norm_num) hl₁)
    have hb₂ : digitsVal ms < 10 ^ 6 :=
      lt_of_lt_of_le (digitsVal_lt hd₂) (Nat.pow_le_pow_right (by norm_num) hl₂)
    have hb₃ : digitsVal ss < 10 ^ 6 :=
      lt_of_lt_of_le (digitsVal_lt hd₃) (Nat.pow_le_pow_right (by norm_num) hl₃)
    have hb₄ : digitsVal (pad6 fs) < 10 ^ 6 := by
      have := digitsVal_lt (pad6_digits hd₄)
      rwa [pad6_length] at this
    have hi₁ : parseIntGo (d :: hs₀) = some ((digitsVal (d :: hs₀) : ℤ)) :=
      parseIntGo_digits (by simp) hd₁ (by push_cast; omega)
    have hi₂ : parseIntGo ms = some ((digitsVal ms : ℤ)) :=
      parseIntGo_digits hne₂ hd₂ (by push_cast; omega)
    have hi₃ : parseIntGo ss = some ((digitsVal ss : ℤ)) :=
      parseIntGo_digits hne₃ hd₃ (by push_cast; omega)
    have hi₄ : parseIntGo (pad6 fs) = some ((digitsVal (pad6 fs) : ℤ)) :=
      parseIntGo_digits (by intro h; have := pad6_length fs; rw [h] at this; simp at this)
        (pad6_digits hd₄) (by push_cast; omega)
    rw [parseOutTimeCore, if_neg hcond, htrim, hsplit]
    simp only [hi₁, hi₂, hsec, List.headD_cons, hi₃]
    rw [show ([ss, fs].getD 1 []) = fs by rfl]
    rw [if_pos (show 1 < ([ss, fs] : List (List Char)).length by simp)]
    rw [hi₄]
    simp only [Option.getD_some]
    rw [wrap64_id (by push_cast; omega) (by push_cast; omega)]
  · intro hs ms ss hne₁ hd₁ hl₁ hne₂ hd₂ hl₂ hne₃ hd₃ hl₃
    obtain ⟨d, hs₀, rfl⟩ : ∃ d hs₀, hs = d :: hs₀ := by
      cases hs with
      | nil => exact absurd rfl hne₁
      | cons d t => exact ⟨d, t, rfl⟩
    have hchars : ∀ c ∈ d :: hs₀ ++ ':' :: ms ++ ':' :: ss,
        isDig c = true ∨ c = ':' := by
      intro c hc
      simp only [List.mem_cons, List.mem_append, or_assoc] at hc
      rcases hc with h | h | h | h | h | h
      · exact Or.inl (hd₁ c (by simp [h]))
      · exact Or.inl (hd₁ c (by simp [h]))
      · exact Or.inr h
      · exact Or.inl (hd₂ c h)
      · exact Or.inr h
      · exact Or.inl (hd₃ c h)
    have hnospace : ∀ c ∈ d :: hs₀ ++ ':' :: ms ++ ':' :: ss,
        isUniSpace c = false := by
      intro c hc
      rcases hchars c hc with h | h
      · exact dig_not_space h
      · subst h; decide
    have htrim := goTrim_id hnospace
    have hdN : isDig d = true := hd₁ d (by simp)
    have hcond : ¬(goTrim (d :: hs₀ ++ ':' :: ms ++ ':' :: ss) = [] ∨
        goTrim (d :: hs₀ ++ ':' :: ms ++ ':' :: ss) = ['N', '/', 'A']) := by
      rw [htrim]
      rintro (h | h)
      · exact absurd h (by simp)
      · have : d = 'N' := by
          have := congrArg List.head? h
          simpa using this
        subst this
        exact absurd hdN (by decide)
    have hsplit : splitOnChar ':' (d :: hs₀ ++ ':' :: ms ++ ':' :: ss) =
        [d :: hs₀, ms, ss] := by
      rw [show d :: hs₀ ++ ':' :: ms ++ ':' :: ss =
          (d :: hs₀) ++ ':' :: (ms ++ ':' :: ss) by simp]
      rw [splitOnChar_append _ fun c hc => dig_ne_of_not_dig (hd₁ c hc) (by decide)]
      rw [splitOnChar_append _ fun c hc => dig_ne_of_not_dig (hd₂ c hc) (by decide)]
      rw [splitOnChar_no_sep fun c hc => dig_ne_of_not_dig (hd₃ c hc) (by decide)]
    have hsec : splitOnChar '.' ss = [ss] :=
      splitOnChar_no_sep fun c hc => dig_ne_of_not_dig (hd₃ c hc) (by decide)
    have hb₁ : digitsVal (d :: hs₀) < 10 ^ 6 :=
      lt_of_lt_of_le (digitsVal_lt hd₁) (Nat.pow_le_pow_right (by norm_num) hl₁)
    have hb₂ : digitsVal ms < 10 ^ 6 :=
      lt_of_lt_of_le (digitsVal_lt hd₂) (Nat.pow_le_pow_right (by norm_num) hl₂)
    have hb₃ : digitsVal ss < 10 ^ 6 :=
      lt_of_lt_of_le (digitsVal_lt hd₃) (Nat.pow_le_pow_right (by norm_num) hl₃)
    have hi₁ : parseIntGo (d :: hs₀) = some ((digitsVal (d :: hs₀) : ℤ)) :=
      parseIntGo_digits (by simp) hd₁ (by push_cast; omega)
    have hi₂ : parseIntGo ms = some ((digitsVal ms : ℤ)) :=
      parseIntGo_digits hne₂ hd₂ (by push_cast; omega)
    have hi₃ : parseIntGo ss = some ((digitsVal ss : ℤ)) :=
      parseIntGo_digits hne₃ hd₃ (by push_cast; omega)
    rw [parseOutTimeCore, if_neg hcond, htrim, hsplit]
    simp only [hi₁, hi₂, hsec, List.headD_cons, hi₃]
    rw [if_neg (show ¬(1 < ([ss] : List (List Char)).length) by simp)]
    rw [add_zero]
    rw [wrap64_id (by push_cast; omega) (by push_cast; omega)]

/-- Witness for C7: `01:23:45.1234567` converts to 5025123456 µs, the
seven-digit fraction being truncated to six digits (123456 µs). -/
theorem parseOutTime_contract_witness :
    parseOutTime "01:23:45.1234567" = 5025123456 := by
  have h := parseOutTime_contract.2.2.1 ['0', '1'] ['2', '3'] ['4', '5']
    ['1', '2', '3', '4', '5', '6', '7'] (by decide) (by decide) (by decide)
    (by decide) (by decide) (by decide) (by decide) (by decide) (by decide)
    (by decide) (by decide)
  rw [parseOutTime]
  rw [show ("01:23:45.1234567" : String).data =
    ['0', '1'] ++ ':' :: ['2', '3'] ++ ':' :: ['4', '5'] ++
      '.' :: ['1', '2', '3', '4', '5', '6', '7'] by rfl]
  rw [h]
  decide

/-- The clamp always lands in `[0, 100]`. -/
theorem clampPercentage_mem (q : ℚ) :
    0 ≤ clampPercentage q ∧ clampPercentage q ≤ 100 := by
  rw [clampPercentage]
  split_ifs with h1 h2 <;> constructor <;> linarith

/-- A positive microsecond count forces a positive duration. -/
theorem goMicroseconds_pos {d : ℤ} (h : 0 < goMicroseconds d) : 0 < d := by
  rcases lt_trichotomy d 0 with hd | hd | hd
  · exfalso
    rw [goMicroseconds, goDiv, Int.sign_eq_neg_one_of_neg hd,
      (by decide : Int.sign (1000 : ℤ) = 1)] at h
    have h0 : (0 : ℤ) ≤ ((d.natAbs / Int.natAbs 1000 : ℕ) : ℤ) := Int.natCast_nonneg _
    omega
  · subst hd
    rw [goMicroseconds, goDiv] at h
    simp at h
  · exact hd

/-- The spec-side reconciliation value is always in `[0, 100]`. -/
theorem specReconcilePercent_mem (s : Progress) :
    0 ≤ specReconcilePercent s ∧ specReconcilePercent s ≤ 100 := by
  rw [specReconcilePercent]
  split_ifs <;> first
    | exact clampPercentage_mem _
    | (constructor <;> norm_num)

/-- The stored percentage of `calculatePercentageLocked` coincides with
the specification's reconciliation rule. -/
theorem calculatePercentage_spec (s : Progress) :
    (calculatePercentage s).Percentage = specReconcilePercent s := by
  have habs : (if framePctOf s - timePctOf s < 0 then -(framePctOf s - timePctOf s)
      else framePctOf s - timePctOf s) = |framePctOf s - timePctOf s| := by
    by_cases h : framePctOf s - timePctOf s < 0
    · rw [if_pos h, abs_of_neg h]
    · rw [if_neg h, abs_of_nonneg (le_of_not_lt h)]
  rw [calculatePercentage, specReconcilePercent, habs]
  by_cases hF : 0 < s.TotalFrames ∧ 0 < s.Frame
  · by_cases hT : 0 < goMicroseconds s.TotalDuration ∧ 0 < s.OutTimeUs
    · have hdur : 0 < s.TotalDuration := goMicroseconds_pos hT.1
      rw [if_pos (show (0 < s.TotalFrames ∧ 0 < s.Frame) ∧
          (0 < s.TotalDuration ∧ 0 < s.OutTimeUs) ∧ 0 < goMicroseconds s.TotalDuration from
          ⟨hF, ⟨hdur, hT.2⟩, hT.1⟩),
        if_pos (show (0 < s.TotalFrames ∧ 0 < s.Frame) ∧
          0 < goMicroseconds s.TotalDuration ∧ 0 < s.OutTimeUs from ⟨hF, hT⟩)]
      by_cases hE : s.FrameEstimated = true
      · rw [if_pos (show 10 < |framePctOf s - timePctOf s| ∨ s.FrameEstimated = true from
            Or.inr hE),
          if_pos (show s.FrameEstimated = true ∨ 10 < |framePctOf s - timePctOf s| from
            Or.inl hE)]
      · by_cases hD : 10 < |framePctOf s - timePctOf s|
        · rw [if_pos (show 10 < |framePctOf s - timePctOf s| ∨ s.FrameEstimated = true from
              Or.inl hD),
            if_pos (show s.FrameEstimated = true ∨ 10 < |framePctOf s - timePctOf s| from
              Or.inr hD)]
        · rw [if_neg (show ¬(10 < |framePctOf s - timePctOf s| ∨ s.FrameEstimated = true) by
              tauto),
            if_neg (show ¬(s.FrameEstimated = true ∨ 10 < |framePctOf s - timePctOf s|) by
              tauto)]
    · rw [if_neg (show ¬((0 < s.TotalFrames ∧ 0 < s.Frame) ∧
          (0 < s.TotalDuration ∧ 0 < s.OutTimeUs) ∧ 0 < goMicroseconds s.TotalDuration) by
          tauto),
        if_neg (show ¬((0 < s.TotalFrames ∧ 0 < s.Frame) ∧
          0 < goMicroseconds s.TotalDuration ∧ 0 < s.OutTimeUs) by tauto),
        if_neg (show ¬((0 < s.TotalDuration ∧ 0 < s.OutTimeUs) ∧
          0 < goMicroseconds s.TotalDuration) by tauto),
        if_neg hT, if_pos hF, if_pos hF]
  · rw [if_neg (show ¬((0 < s.TotalFrames ∧ 0 < s.Frame) ∧
        (0 < s.TotalDuration ∧ 0 < s.OutTimeUs) ∧ 0 < goMicroseconds s.TotalDuration) by
        tauto),
      if_neg (show ¬((0 < s.TotalFrames ∧ 0 < s.Frame) ∧
        0 < goMicroseconds s.TotalDuration ∧ 0 < s.OutTimeUs) by tauto)]
    by_cases hT : 0 < goMicroseconds s.TotalDuration ∧ 0 < s.OutTimeUs
    · have hdur : 0 < s.TotalDuration := goMicroseconds_pos hT.1
      rw [if_pos (show (0 < s.TotalDuration ∧ 0 < s.OutTimeUs) ∧
          0 < goMicroseconds s.TotalDuration from ⟨⟨hdur, hT.2⟩, hT.1⟩),
        if_pos hT]
    · rw [if_neg (show ¬((0 < s.TotalDuration ∧ 0 < s.OutTimeUs) ∧
          0 < goMicroseconds s.TotalDuration) by tauto),
        if_neg hT, if_neg hF, if_neg hF]

/-- The ETA computation never touches the stored percentage. -/
theorem calculateETA_percentage (e : ℤ) (s : Progress) :
    (calculateETA e s).Percentage = s.Percentage := by
  rw [calculateETA]
  split
  · rfl
  · split
    · rfl
    · split_ifs <;> rfl

/-- C1 (confirmed).  After applying any telemetry batch, the stored
percentage is exactly the specification's reconciliation of the two
candidates over the batch-updated fields — time-based when both
candidates are valid and the frame count is estimated or they disagree
by more than 10 points, otherwise frame-based; the single valid
candidate when only one is valid; 0 when neither is — and the stored
value always lies in `[0, 100]`. -/
theorem applyBatch_percentage_reconciled :
    ∀ (elapsed : ℤ) (s : Progress) (b : progressUpdate),
      (applyProgressBatch elapsed s b).Percentage =
        specReconcilePercent (applyFields s b) ∧
      0 ≤ (applyProgressBatch elapsed s b).Percentage ∧
      (applyProgressBatch elapsed s b).Percentage ≤ 100 := by
  intro elapsed s b
  have h1 : (applyProgressBatch elapsed s b).Percentage =
      specReconcilePercent (applyFields s b) := by
    rw [applyProgressBatch, calculateETA_percentage, calculatePercentage_spec]
  refine ⟨h1, ?_, ?_⟩
  · rw [h1]
    exact (specReconcilePercent_mem _).1
  · rw [h1]
    exact (specReconcilePercent_mem _).2

/-- The percentage computation never touches the stored frame. -/
theorem calculatePercentage_frame (s : Progress) :
    (calculatePercentage s).Frame = s.Frame := by
  rw [calculatePercentage]
  split_ifs <;> rfl

/-- The ETA computation never touches the stored frame. -/
theorem calculateETA_frame (e : ℤ) (s : Progress) :
    (calculateETA e s).Frame = s.Frame := by
  rw [calculateETA]
  split
  · rfl
  · split
    · rfl
    · split_ifs <;> rfl

/-- The field-application step stores exactly the batch's frame when
present. -/
theorem applyFields_frame (s : Progress) (b : progressUpdate) :
    (applyFields s b).Frame = if b.frameSet = true then b.frame else s.Frame := by
  simp only [applyFields, apply_ite (fun st : Progress => st.Frame), ite_self]

/-- Applying a batch stores exactly the batch's frame when present. -/
theorem applyProgressBatch_frame (e : ℤ) (s : Progress) (b : progressUpdate) :
    (applyProgressBatch e s b).Frame =
      if b.frameSet = true then b.frame else s.Frame := by
  rw [applyProgressBatch, calculateETA_frame, calculatePercentage_frame,
    applyFields_frame]

/-- C2 (confirmed).  Finalization overrides the frame total with the
final observed frame when positive (clearing the estimated flag) and
unconditionally forces percentage 100 with ETA unavailable; in the
end-to-end scenario, a terminal `progress=end` after `frame=1000` with
previously estimated totalFrames 950 yields totalFrames 1000, the
estimated flag cleared, percentage 100 and ETA unavailable. -/
theorem finalize_completion :
    (∀ s : Progress,
      (0 < s.Frame → (finalizeProgress s).TotalFrames = s.Frame ∧
        (finalizeProgress s).FrameEstimated = false) ∧
      (finalizeProgress s).Percentage = 100 ∧
      (finalizeProgress s).ETAAvailable = false) ∧
    (∀ elapsed : ℤ,
      (processLines elapsed
        { initProgress with TotalFrames := 950, FrameEstimated := true }
        ["frame=1000", "progress=end"]).TotalFrames = 1000 ∧
      (processLines elapsed
        { initProgress with TotalFrames := 950, FrameEstimated := true }
        ["frame=1000", "progress=end"]).FrameEstimated = false ∧
      (processLines elapsed
        { initProgress with TotalFrames := 950, FrameEstimated := true }
        ["frame=1000", "progress=end"]).Percentage = 100 ∧
      (processLines elapsed
        { initProgress with TotalFrames := 950, FrameEstimated := true }
        ["frame=1000", "progress=end"]).ETAAvailable = false) := by
  constructor
  · intro s
    refine ⟨?_, ?_, ?_⟩
    · intro hpos
      rw [finalizeProgress, if_pos hpos]
      exact ⟨rfl, rfl⟩
    · rw [finalizeProgress]
      split_ifs <;> rfl
    · rw [finalizeProgress]
      split_ifs <;> rfl
  · intro elapsed
    have hacc : accumLine emptyBatch "frame=1000" =
        { emptyBatch with frame := 1000, frameSet := true } := by decide
    have hrun : processLines elapsed
        { initProgress with TotalFrames := 950, FrameEstimated := true }
        ["frame=1000", "progress=end"] =
        finalizeProgress (applyProgressBatch elapsed
          { initProgress with TotalFrames := 950, FrameEstimated := true }
          { emptyBatch with frame := 1000, frameSet := true }) := by
      rw [processLines, processLinesAux, if_neg (by decide), hacc,
        processLinesAux, if_pos (by decide), if_pos rfl,
        processLinesAux, if_neg (by decide)]
    have hframe : (applyProgressBatch elapsed
        { initProgress with TotalFrames := 950, FrameEstimated := true }
        { emptyBatch with frame := 1000, frameSet := true }).Frame = 1000 := by
      rw [applyProgressBatch_frame]
      simp
    rw [hrun, finalizeProgress, if_pos (by rw [hframe]; norm_num)]
    refine ⟨by simpa using hframe, rfl, rfl, rfl⟩

/-- Witness for C2: finalization after observing frame 7 adopts 7 as
the total. -/
theorem finalize_completion_witness :
    (finalizeProgress { initProgress with Frame := 7 }).TotalFrames = 7 ∧
      (finalizeProgress { initProgress with Frame := 7 }).FrameEstimated = false :=
  (finalize_completion.1 { initProgress with Frame := 7 }).1 (by norm_num)

/-- C3 counterexample: a batch whose frame value 5 is below the stored
frame 10 is applied verbatim, so the stored frame drops from 10 to 5 —
the store does not enforce monotonicity. -/
theorem applyBatch_frame_decreases :
    (applyProgressBatch 0 { initProgress with Frame := 10 }
      { emptyBatch with frame := 5, frameSet := true }).Frame = 5 ∧
    ({ initProgress with Frame := 10 } : Progress).Frame = 10 ∧ (5 : ℤ) < 10 := by
  refine ⟨?_, rfl, by norm_num⟩
  rw [applyProgressBatch_frame]
  simp

/-- C3 (amended).  Applying a batch copies the batch's frame value
unconditionally, so the stored frame is monotonic non-decreasing
exactly when each batch carries a frame at least as large as the stored
one (which the telemetry protocol's non-decreasing frame counter
provides); a batch without a frame update leaves the stored frame
unchanged. -/
theorem applyBatch_frame_monotone :
    ∀ (elapsed : ℤ) (s : Progress) (b : progressUpdate),
      (b.frameSet = true → s.Frame ≤ b.frame →
        s.Frame ≤ (applyProgressBatch elapsed s b).Frame) ∧
      (b.frameSet = false → (applyProgressBatch elapsed s b).Frame = s.Frame) := by
  intro e s b
  constructor
  · intro hset hle
    rw [applyProgressBatch_frame, if_pos hset]
    exact hle
  · intro hset
    rw [applyProgressBatch_frame, if_neg (by simp [hset])]

/-- Witness for C3: a batch carrying frame 5 onto stored frame 3 keeps
the stored frame non-decreasing. -/
theorem applyBatch_frame_monotone_witness :
    ({ initProgress with Frame := 3 } : Progress).Frame ≤
      (applyProgressBatch 0 { initProgress with Frame := 3 }
        { emptyBatch with frame := 5, frameSet := true }).Frame :=
  (applyBatch_frame_monotone 0 { initProgress with Frame := 3 }
    { emptyBatch with frame := 5, frameSet := true }).1 rfl (by norm_num)

/-- C4 counterexample: with source rate 24.6 fps and duration 1 s the
stored estimate is the truncation 24, while rounding to nearest as the
claim states would give 25. -/
theorem estimate_truncates_not_rounds :
    (estimateFromDuration { initProgress with SourceFPS := 123 / 5 } 1).TotalFrames = 24 ∧
      roundQ ((1 : ℚ) * (123 / 5)) = 25 ∧ ((24 : ℤ) ≠ 25) := by
  refine ⟨?_, by norm_num [roundQ], by norm_num⟩
  have hval : truncQ ((1 : ℚ) *
      ({ initProgress with SourceFPS := 123 / 5 } : Progress).SourceFPS) = 24 := by
    norm_num [truncQ]
  rw [estimateFromDuration, if_neg (by norm_num), if_neg (by norm_num),
    if_pos (show (0 : ℚ) < 123 / 5 ∧ (123 / 5 : ℚ) < 1000 by norm_num),
    if_pos (by rw [hval]; norm_num)]
  exact hval

/-- C4 (amended).  For a positive duration within the 24-hour bound and
a source frame rate strictly between 0 and 1000, the duration-based
estimate stored as totalFrames is the *truncation* (floor, the values
being positive) of `duration × sourceFrameRate`, stored together with
`frameCountIsEstimated = true` exactly when that truncation lies
strictly between 0 and 100 million; otherwise the frame fields are left
untouched. -/
theorem estimate_frames_contract :
    ∀ (s : Progress) (duration : ℚ), 0 < duration → duration ≤ 86400 →
      0 < s.SourceFPS → s.SourceFPS < 1000 →
      truncQ (duration * s.SourceFPS) = ⌊duration * s.SourceFPS⌋ ∧
      (0 < truncQ (duration * s.SourceFPS) ∧
          truncQ (duration * s.SourceFPS) < 100000000 →
        (estimateFromDuration s duration).TotalFrames =
          truncQ (duration * s.SourceFPS) ∧
        (estimateFromDuration s duration).FrameEstimated = true) ∧
      (¬(0 < truncQ (duration * s.SourceFPS) ∧
          truncQ (duration * s.SourceFPS) < 100000000) →
        (estimateFromDuration s duration).TotalFrames = s.TotalFrames ∧
        (estimateFromDuration s duration).FrameEstimated = s.FrameEstimated) := by
  intro s dur h0 h864 hf0 hf1000
  have hpos : (0 : ℚ) ≤ dur * s.SourceFPS := le_of_lt (mul_pos h0 hf0)
  refine ⟨by rw [truncQ, if_pos hpos], ?_, ?_⟩
  · intro hin
    rw [estimateFromDuration, if_neg (not_le.mpr h0), if_neg (not_lt.mpr h864),
      if_pos ⟨hf0, hf1000⟩, if_pos hin]
    exact ⟨rfl, rfl⟩
  · intro hout
    rw [estimateFromDuration, if_neg (not_le.mpr h0), if_neg (not_lt.mpr h864),
      if_pos ⟨hf0, hf1000⟩, if_neg hout]
    exact ⟨rfl, rfl⟩

/-- Witness for C4: 2 seconds at 24 fps estimates 48 frames and flags
the count as estimated. -/
theorem estimate_frames_contract_witness :
    (estimateFromDuration { initProgress with SourceFPS := 24 } 2).TotalFrames = 48 ∧
      (estimateFromDuration { initProgress with SourceFPS := 24 } 2).FrameEstimated =
        true := by
  have h := (estimate_frames_contract { initProgress with SourceFPS := 24 } 2
      (by norm_num) (by norm_num) (by norm_num) (by norm_num)).2.1
      ⟨by norm_num [truncQ], by norm_num [truncQ]⟩
  refine ⟨?_, h.2⟩
  rw [h.1]
  norm_num [truncQ]

/-- C5 counterexample: with a previous *available* ETA equal to 0 and a
freshly computed raw ETA of 1 s, the source stores the raw value
un-smoothed (1000000000 ns), not the claimed blend (the 0.2-weight
branch would give 200000000 ns), because the smoothing branch requires
the old ETA to be strictly positive, not merely available. -/
theorem eta_smoothing_skips_zero_old :
    (etaProbeState 0).ETAAvailable = true ∧
    (calculateETA 6000000000 (etaProbeState 0)).ETA = 1000000000 ∧
    truncQ ((1000000000 : ℚ) * (2 / 10) + (0 : ℚ) * (8 / 10)) = 200000000 ∧
    ((1000000000 : ℤ) ≠ 200000000) := by
  refine ⟨rfl, ?_, by norm_num [truncQ], by norm_num⟩
  have hmic : goMicroseconds 2000000000 = 2000000 := by decide
  have hraw : computeRawEta 6000000000 (etaProbeState 0) = some 1000000000 := by
    rw [computeRawEta, etaMethod1]
    simp only [etaProbeState]
    rw [if_pos (show (0 : ℚ) < 1 ∧ (0 : ℤ) < 2000000000 ∧ (0 : ℤ) < 1000000 by norm_num)]
    rw [hmic, if_pos (show (0 : ℤ) < 2000000 - 1000000 by norm_num)]
    norm_num [truncQ]
  simp only [calculateETA, hraw]
  rw [if_neg (show ¬((etaProbeState 0).StartTimeIsZero = false ∧
      (6000000000 : ℤ) < 5000000000) by norm_num)]
  rw [if_neg (show ¬((etaProbeState 0).ETAAvailable = true ∧
      (0 : ℤ) < (etaProbeState 0).ETA) by norm_num [etaProbeState])]

/-- C5 (amended).  When the warm-up gate has passed and a raw ETA was
computed, the stored ETA is the exponentially weighted blend of old and
new — weight 0.3 on the new value normally, 0.2 when the new sample
differs from the old by more than half the old value — provided the
previous ETA was available *and strictly positive*; when no previous
ETA was available, the first computed ETA is stored un-smoothed. -/
theorem eta_smoothing_contract :
    ∀ (elapsed : ℤ) (s : Progress) (newETA : ℤ),
      ¬(s.StartTimeIsZero = false ∧ elapsed < 5000000000) →
      computeRawEta elapsed s = some newETA →
      ((s.ETAAvailable = true ∧ 0 < s.ETA →
        (calculateETA elapsed s).ETA =
          (if (s.ETA : ℚ) * (1 / 2) < |((newETA - s.ETA : ℤ) : ℚ)| then
            truncQ ((newETA : ℚ) * (2 / 10) + (s.ETA : ℚ) * (8 / 10))
          else truncQ ((newETA : ℚ) * (3 / 10) + (s.ETA : ℚ) * (7 / 10)))) ∧
      (s.ETAAvailable = false → (calculateETA elapsed s).ETA = newETA)) := by
  intro e s n hgate hraw
  have habs : (if ((n - s.ETA : ℤ) : ℚ) < 0 then -((n - s.ETA : ℤ) : ℚ)
      else ((n - s.ETA : ℤ) : ℚ)) = |((n - s.ETA : ℤ) : ℚ)| := by
    by_cases h : ((n - s.ETA : ℤ) : ℚ) < 0
    · rw [if_pos h, abs_of_neg h]
    · rw [if_neg h, abs_of_nonneg (le_of_not_lt h)]
  constructor
  · rintro ⟨hav, hpos⟩
    simp only [calculateETA, hraw]
    rw [if_neg hgate, if_pos ⟨hav, hpos⟩, habs]
    by_cases hd : (s.ETA : ℚ) * (1 / 2) < |((n - s.ETA : ℤ) : ℚ)|
    · rw [if_pos hd, if_pos hd]
    · rw [if_neg hd, if_neg hd]
  · intro hav
    simp only [calculateETA, hraw]
    rw [if_neg hgate, if_neg (show ¬(s.ETAAvailable = true ∧ 0 < s.ETA) by
      simp [hav])]

/-- Witness for C5: previous ETA 2 s available and positive, new raw
ETA 1 s (within 50 percent), stored value is the 0.3-weighted blend
1.7 s. -/
theorem eta_smoothing_contract_witness :
    (calculateETA 6000000000 (etaProbeState 2000000000)).ETA = 1700000000 := by
  have hmic : goMicroseconds 2000000000 = 2000000 := by decide
  have hraw : computeRawEta 6000000000 (etaProbeState 2000000000) =
      some 1000000000 := by
    rw [computeRawEta, etaMethod1]
    simp only [etaProbeState]
    rw [if_pos (show (0 : ℚ) < 1 ∧ (0 : ℤ) < 2000000000 ∧ (0 : ℤ) < 1000000 by norm_num)]
    rw [hmic, if_pos (show (0 : ℤ) < 2000000 - 1000000 by norm_num)]
    norm_num [truncQ]
  have h := (eta_smoothing_contract 6000000000 (etaProbeState 2000000000)
      1000000000 (by norm_num [etaProbeState]) hraw).1
      ⟨rfl, by norm_num [etaProbeState]⟩
  rw [h, if_neg (by norm_num [etaProbeState])]
  norm_num [truncQ, etaProbeState]

/-- Reading marker-free lines accumulates them into the pending batch,
and a `progress=continue` boundary applies that batch exactly once. -/
theorem processAux_boundary (elapsed : ℤ) (pre : List String) :
    ∀ (s : Progress) (b : progressUpdate) (rest : List String),
      (∀ l ∈ pre, hasPre ['p', 'r', 'o', 'g', 'r', 'e', 's', 's', '='] l.data = false) →
      processLinesAux elapsed s b (pre ++ "progress=continue" :: rest) =
        processLinesAux elapsed (applyProgressBatch elapsed s (pre.foldl accumLine b))
          emptyBatch rest := by
  induction pre with
  | nil =>
    intro s b rest _
    rw [List.nil_append, processLinesAux, if_pos (by decide), if_neg (by decide),
      List.foldl_nil]
  | cons l pre ih =>
    intro s b rest h
    rw [List.cons_append, processLinesAux, if_neg (by simp [h l (by simp)]),
      List.foldl_cons]
    exact ih s (accumLine b l) rest fun l' hl' => h l' (by simp [hl'])

/-- At end of stream, the pending batch accumulated from marker-free
lines is applied exactly when it carries a frame, fps or size update. -/
theorem processAux_eos (elapsed : ℤ) (pre : List String) :
    ∀ (s : Progress) (b : progressUpdate),
      (∀ l ∈ pre, hasPre ['p', 'r', 'o', 'g', 'r', 'e', 's', 's', '='] l.data = false) →
      processLinesAux elapsed s b pre =
        (if ((pre.foldl accumLine b).frameSet || (pre.foldl accumLine b).fpsSet ||
            (pre.foldl accumLine b).sizeSet) = true then
          applyProgressBatch elapsed s (pre.foldl accumLine b)
        else s) := by
  induction pre with
  | nil =>
    intro s b _
    rw [List.foldl_nil, processLinesAux]
  | cons l pre ih =>
    intro s b h
    rw [processLinesAux, if_neg (by simp [h l (by simp)]), List.foldl_cons]
    exact ih s (accumLine b l) fun l' hl' => h l' (by simp [hl'])

/-- C8 (amended).  Within one stream the pending batch is consumed
exactly once: a `progress=continue` boundary after marker-free lines
applies the accumulated batch and restarts from an empty batch, and a
stream that ends without a boundary applies its trailing batch only if
that batch carries a frame, fps or size update — a trailing batch with
only other fields (e.g. speed) is discarded. -/
theorem batch_consumed_at_boundary :
    ∀ (elapsed : ℤ) (s : Progress) (pre rest : List String),
      (∀ l ∈ pre, hasPre ['p', 'r', 'o', 'g', 'r', 'e', 's', 's', '='] l.data = false) →
      (processLines elapsed s (pre ++ "progress=continue" :: rest) =
        processLinesAux elapsed
          (applyProgressBatch elapsed s (pre.foldl accumLine emptyBatch))
          emptyBatch rest) ∧
      (processLines elapsed s pre =
        if ((pre.foldl accumLine emptyBatch).frameSet ||
            (pre.foldl accumLine emptyBatch).fpsSet ||
            (pre.foldl accumLine emptyBatch).sizeSet) = true then
          applyProgressBatch elapsed s (pre.foldl accumLine emptyBatch)
        else s) := by
  intro e s pre rest h
  exact ⟨processAux_boundary e pre s emptyBatch rest h,
    processAux_eos e pre s emptyBatch h⟩

/-- Witness for C8: the stream `frame=5`, `progress=continue` applies
its one-frame batch at the boundary, and the single-line stream
`frame=5` still applies it at end of stream. -/
theorem batch_consumed_at_boundary_witness :
    (processLines 0 initProgress (["frame=5"] ++ "progress=continue" :: []) =
      processLinesAux 0
        (applyProgressBatch 0 initProgress
          (List.foldl accumLine emptyBatch ["frame=5"]))
        emptyBatch []) ∧
    (processLines 0 initProgress ["frame=5"] =
      if (((["frame=5"] : List String).foldl accumLine emptyBatch).frameSet ||
          ((["frame=5"] : List String).foldl accumLine emptyBatch).fpsSet ||
          ((["frame=5"] : List String).foldl accumLine emptyBatch).sizeSet) = true then
        applyProgressBatch 0 initProgress
          ((["frame=5"] : List String).foldl accumLine emptyBatch)
      else initProgress) :=
  batch_consumed_at_boundary 0 initProgress ["frame=5"] [] (by decide)

/-- The percentage computation never touches the raw speed text. -/
theorem calculatePercentage_speedRaw (s : Progress) :
    (calculatePercentage s).SpeedRaw = s.SpeedRaw := by
  rw [calculatePercentage]
  split_ifs <;> rfl

/-- The ETA computation never touches the raw speed text. -/
theorem calculateETA_speedRaw (e : ℤ) (s : Progress) :
    (calculateETA e s).SpeedRaw = s.SpeedRaw := by
  rw [calculateETA]
  split
  · rfl
  · split
    · rfl
    · split_ifs <;> rfl

/-- The field-application step stores exactly the batch's raw speed
text when present. -/
theorem applyFields_speedRaw (s : Progress) (b : progressUpdate) :
    (applyFields s b).SpeedRaw =
      if b.speedSet = true then b.speedRaw else s.SpeedRaw := by
  simp only [applyFields, apply_ite (fun st : Progress => st.SpeedRaw), ite_self]

/-- C8 counterexample: a stream consisting of the single line
`speed=1.5x` with no boundary marker accumulates a speed-only batch,
and the stream end discards it — the state is returned unchanged —
although applying the batch would have recorded the raw speed `1.5x`. -/
theorem trailing_speed_batch_dropped :
    processLines 0 initProgress ["speed=1.5x"] = initProgress ∧
    (accumLine emptyBatch "speed=1.5x").speedSet = true ∧
    (applyProgressBatch 0 initProgress
      (accumLine emptyBatch "speed=1.5x")).SpeedRaw = "1.5x" ∧
    initProgress.SpeedRaw ≠ "1.5x" := by
  have haccum : accumLine emptyBatch "speed=1.5x" =
      { emptyBatch with speedRaw := "1.5x", speed := 3 / 2, speedSet := true } := by
    simp +decide [accumLine, splitN2Eq, accumKV, goTrim, trimSuffixX, goParseFloat,
      parseMantissa, stripSign, digitsVal]
    norm_num
  refine ⟨?_, ?_, ?_, by decide⟩
  · rw [processLines, processLinesAux, if_neg (by decide), haccum, processLinesAux,
      if_neg (by decide)]
  · rw [haccum]
  · rw [haccum, applyProgressBatch, calculateETA_speedRaw, calculatePercentage_speedRaw,
      applyFields_speedRaw]
    rfl

/-- Appending under the 100-entry cap keeps the buffer within the
cap. -/
theorem addLogBounded_length (logs : List String) (line : String) :
    (addLogBounded logs line).length ≤ 100 := by
  rw [addLogBounded]
  split_ifs with h1
  · rw [List.length_drop]
    omega
  · exact le_of_not_lt h1

/-- C9 counterexample: a diagnostic log buffer already holding 100
entries (so the claimed invariant's precondition holds) grows to 101
entries when the run-completion step appends its success line, because
that append — unlike `addLog` and the stderr capture — performs no
trim.  The claim's "never holds more than 100 entries" is therefore
false of the program. -/
theorem completion_append_overflows :
    (List.replicate 100 "x").length ≤ 100 ∧
    (waitCompletion initProgress (List.replicate 100 "x") none).2.1.length = 101 ∧
    ¬((waitCompletion initProgress (List.replicate 100 "x") none).2.1.length ≤ 100) := by
  refine ⟨by simp, ?_, ?_⟩
  · rw [waitCompletion]
    simp
  · rw [waitCompletion]
    simp

/-- C9 (amended).  The two trimmed append operations — the internal
`addLog` and the stderr capture step — do preserve the 100-entry bound,
dropping the oldest entries first (the kept buffer is a suffix of the
appended list); but the run-completion appends of the process-wait
goroutine bypass the trim and always grow the buffer by one entry, so a
full buffer reaches 101 entries at run end. -/
theorem log_buffer_bounded :
    ∀ (logs : List String) (line : String) (s : Progress) (err : Option String),
      logs.length ≤ 100 →
      (addLogBounded logs line).length ≤ 100 ∧
      List.IsSuffix (addLogBounded logs line) (logs ++ [line]) ∧
      (stderrLogStep logs line).length ≤ 100 ∧
      (waitCompletion s logs err).2.1.length = logs.length + 1 := by
  intro logs line s err h
  refine ⟨addLogBounded_length logs line, ?_, ?_, ?_⟩
  · rw [addLogBounded]
    split_ifs
    · exact List.drop_suffix _ _
    · exact List.suffix_refl _
  · rw [stderrLogStep]
    split_ifs
    · exact addLogBounded_length logs line
    · exact h
  · cases err <;> simp [waitCompletion]

/-- Witness for C9: appending one line to an empty buffer stays within
the cap and is a suffix of the appended list, while the completion
append grows the buffer by exactly one entry. -/
theorem log_buffer_bounded_witness :
    (addLogBounded ([] : List String) "x").length ≤ 100 ∧
      List.IsSuffix (addLogBounded ([] : List String) "x")
        (([] : List String) ++ ["x"]) ∧
      (stderrLogStep ([] : List String) "x").length ≤ 100 ∧
      (waitCompletion initProgress ([] : List String) none).2.1.length =
        ([] : List String).length + 1 :=
  log_buffer_bounded ([] : List String) "x" initProgress none (by norm_num)

end SvtEncoder
